import Mathlib

/-!
Verification of the downloads page of NepaliWalletDesktop
(src/app/dashboard/downloads/page.tsx).

The page keeps a catalog of exported files, classifies a selected file by
its extension, decodes it into a preview representation (plain text,
parsed CSV rows, or a blob URL for a PDF viewer), and supports deleting
catalog entries.  The definitions below are a shallow embedding of that
component: the React state becomes an explicit `PageState`, the Tauri
file-system calls become oracles describing their outcomes, and the
browser primitives used by the code (`split`, `toLowerCase`, `atob`,
`URL.createObjectURL`, Papa.parse) are modelled by executable functions
faithful to their specified behavior.
-/

/-- One catalog entry (the `FileType` interface): file name and
modification time in epoch milliseconds, 0 when the host reports no
mtime. -/
structure FileType where
  name : String
  mtime : Int
deriving Repr, DecidableEq

/-- The tagged preview representation stored in component state
(`PreviewResult`).  CSV rows are kept as ordered (header, cell) pairs,
matching the key order of the row objects produced by the parser. -/
inductive PreviewResult where
  | txt (content : String)
  | csv (content : List (List (String × String)))
  | pdf (content : List Nat)
  | unknown
deriving Repr, DecidableEq

/-- JS `String.prototype.split` with a one-character separator, at the
character-list level.  Like in JS, the result always has at least one
piece. -/
def splitOnChar (sep : Char) : List Char → List (List Char)
  | [] => [[]]
  | c :: cs =>
    if c = sep then [] :: splitOnChar sep cs
    else
      match splitOnChar sep cs with
      | [] => [[c]]
      | p :: ps => (c :: p) :: ps

/-- The extension computed in `readAnyFile`:
`file.name.split(".").pop()?.toLowerCase()`.  `split` always returns a
nonempty array, so `pop` is the last piece and is never undefined. -/
def extOf (name : String) : String :=
  String.mk (((splitOnChar '.' name.data).getLastD []).map Char.toLower)

/-- The four preview kinds of the dispatcher. -/
inductive PreviewKind where
  | text
  | tabular
  | binaryResource
  | unsupported
deriving Repr, DecidableEq

/-- The extension dispatch performed by `readAnyFile`, expressed as a
kind: the branch taken is decided by comparing `extOf` with "txt", "csv"
and "pdf", in that order. -/
def classify (name : String) : PreviewKind :=
  if extOf name = "txt" then PreviewKind.text
  else if extOf name = "csv" then PreviewKind.tabular
  else if extOf name = "pdf" then PreviewKind.binaryResource
  else PreviewKind.unsupported

/-- Spec-side definition of the suffix of a name after its last dot (the
whole name when it contains no dot), written directly from the spec's
words for comparison with the extension the code computes. -/
def suffixAfterLastDot : List Char → List Char
  | [] => []
  | c :: cs =>
    if '.' ∈ cs then suffixAfterLastDot cs
    else if c = '.' then cs
    else c :: cs

/-- Spec-side lowercased suffix after the last dot. -/
def specSuffixLower (name : String) : String :=
  String.mk ((suffixAfterLastDot name.data).map Char.toLower)

/-- Spec-side extension-to-kind mapping: txt to text, csv to tabular,
pdf to binaryResource, anything else unsupported. -/
def extKindMap (e : String) : PreviewKind :=
  if e = "txt" then PreviewKind.text
  else if e = "csv" then PreviewKind.tabular
  else if e = "pdf" then PreviewKind.binaryResource
  else PreviewKind.unsupported

/-- Model of `Papa.parse` with `header: true` and `skipEmptyLines: true`
on newline-separated, comma-delimited input: fully empty lines are
dropped, the first remaining line is the header, and each further line
becomes one record pairing each header name with the cell in the same
column. -/
def papaParse (csvText : String) : List (List (String × String)) :=
  match (splitOnChar '\n' csvText.data).filter (fun l => !l.isEmpty) with
  | [] => []
  | header :: dataRows =>
    dataRows.map (fun r =>
      ((splitOnChar ',' header).map String.mk).zip
        ((splitOnChar ',' r).map String.mk))

/-- Joins pieces with a separator character (inverse of `splitOnChar` on
separator-free pieces); used to build concrete CSV texts. -/
def intercalateChar (sep : Char) : List (List Char) → List Char
  | [] => []
  | [p] => p
  | p :: q :: ps => p ++ sep :: intercalateChar sep (q :: ps)

/-- One comma-joined CSV line built from a list of cells. -/
def csvLine (cells : List String) : List Char :=
  intercalateChar ',' (cells.map String.data)

/-- A CSV text with a header line followed by one line per data row. -/
def mkCsv (hs : List String) (rows : List (List String)) : String :=
  String.mk (intercalateChar '\n' (csvLine hs :: rows.map csvLine))

/-- The standard base64 alphabet, in index order. -/
def b64chars : List Char :=
  "ABCDEFGHIJKLMNOPQRSTUVWXYZabcdefghijklmnopqrstuvwxyz0123456789+/".data

/-- The character encoding a six-bit value. -/
def sextetToChar (n : Nat) : Char := b64chars.getD n '?'

/-- The six-bit value of a base64 alphabet character. -/
def charToSextet (c : Char) : Nat := b64chars.indexOf c

/-- Standard base64 encoding of a byte sequence (three bytes per four
characters, '=' padding): the form in which some hosts hand the file
bytes to `readFile`. -/
def encodeChunks : List Nat → List Char
  | a :: b :: c :: rest =>
    sextetToChar (a / 4) :: sextetToChar (a % 4 * 16 + b / 16) ::
      sextetToChar (b % 16 * 4 + c / 64) :: sextetToChar (c % 64) ::
      encodeChunks rest
  | [a, b] =>
    [sextetToChar (a / 4), sextetToChar (a % 4 * 16 + b / 16),
      sextetToChar (b % 16 * 4), '=']
  | [a] =>
    [sextetToChar (a / 4), sextetToChar (a % 4 * 16), '=', '=']
  | [] => []

/-- Base64 encoding as a string. -/
def base64Encode (bytes : List Nat) : String := String.mk (encodeChunks bytes)

/-- Byte-level decoding of well-formed base64 character data (the work
done by `atob`): four characters per three bytes, with '=' padding
cutting the final group short. -/
def decodeChunks : List Char → List Nat
  | c1 :: c2 :: c3 :: c4 :: rest =>
    let s1 := charToSextet c1
    let s2 := charToSextet c2
    let s3 := charToSextet c3
    if c4 = '=' then
      if c3 = '=' then [s1 * 4 + s2 / 16]
      else [s1 * 4 + s2 / 16, s2 % 16 * 16 + s3 / 4]
    else
      (s1 * 4 + s2 / 16) :: (s2 % 16 * 16 + s3 / 4) ::
        (s3 % 4 * 64 + charToSextet c4) :: decodeChunks rest
  | _ => []

/-- JS `atob`: decodes a base64 string into a binary string whose
character codes are the decoded bytes. -/
def atobStr (s : String) : String :=
  String.mk ((decodeChunks s.data).map Char.ofNat)

/-- The base64-vs-bytes normalization in `readAnyFile` (lines 82 to 94 of
the page): a string result is decoded with `atob` and its character
codes collected into the byte array; a byte-array result is used as
is. -/
def uint8FromBinary : String ⊕ List Nat → List Nat
  | Sum.inl s => (atobStr s).data.map Char.toNat
  | Sum.inr bs => bs

/-- Outcomes of the file reads `readAnyFile` can perform on the selected
file: `textRead` is the result of `readTextFile` (none when it throws),
`binRead` the result of `readFile` (a base64 string or raw bytes
depending on the host, none when it throws). -/
structure FsOracle where
  textRead : Option String
  binRead : Option (String ⊕ List Nat)
deriving Repr, DecidableEq

/-- A fresh blob URL as produced by `URL.createObjectURL`, allocated
from a counter. -/
def freshUrl (n : Nat) : String := "blob:" ++ Nat.repr n

/-- The component state: the catalog, the active preview content, the
pdf blob URL (empty string when none), the shown file name, plus the
bookkeeping of every created and never revoked blob URL with its blob
bytes and the allocation counter. -/
structure PageState where
  files : List FileType
  fileContent : Option PreviewResult
  pdfUrl : String
  fileName : String
  liveUrls : List (String × List Nat)
  urlCounter : Nat
deriving Repr, DecidableEq

/-- Initial component state. -/
def initState : PageState :=
  { files := [], fileContent := none, pdfUrl := "", fileName := "",
    liveUrls := [], urlCounter := 0 }

/-- The preview dispatcher `readAnyFile`.  The branches test the
lowercased last name piece against "txt", "csv" and "pdf"; a read
failure takes the catch branch, which leaves the state untouched; the
pdf branch normalizes the read result and creates a blob URL, which is
never revoked anywhere in the component.  Every path falls through to
the final unknown return value. -/
def readAnyFile (fs : FsOracle) (file : FileType) (st : PageState) :
    PageState × PreviewResult :=
  if extOf file.name = "txt" then
    match fs.textRead with
    | some text =>
      ({ st with fileContent := some (PreviewResult.txt text) },
        PreviewResult.unknown)
    | none => (st, PreviewResult.unknown)
  else if extOf file.name = "csv" then
    match fs.textRead with
    | some csvText =>
      ({ st with fileContent := some (PreviewResult.csv (papaParse csvText)) },
        PreviewResult.unknown)
    | none => (st, PreviewResult.unknown)
  else if extOf file.name = "pdf" then
    match fs.binRead with
    | some binary =>
      ({ st with
          pdfUrl := freshUrl st.urlCounter
          liveUrls := st.liveUrls ++ [(freshUrl st.urlCounter, uint8FromBinary binary)]
          urlCounter := st.urlCounter + 1 },
        PreviewResult.unknown)
    | none => (st, PreviewResult.unknown)
  else (st, PreviewResult.unknown)

/-- `openFile`: clears the pdf URL reference and the preview content,
sets the file name, then runs the dispatcher, discarding its return
value. -/
def openFile (fs : FsOracle) (file : FileType) (st : PageState) : PageState :=
  (readAnyFile fs file
    { st with pdfUrl := "", fileContent := none, fileName := file.name }).1

/-- The preview close button: clears the URL reference, the preview
content and the shown file name.  It does not revoke any created blob
URL. -/
def closePreview (st : PageState) : PageState :=
  { st with pdfUrl := "", fileContent := none, fileName := "" }

/-- User-interface operations relevant to the preview lifecycle. -/
inductive UiOp where
  | openF (fs : FsOracle) (file : FileType)
  | closeP
deriving Repr

/-- One step of the preview lifecycle. -/
def uiStep (st : PageState) : UiOp → PageState
  | UiOp.openF fs f => openFile fs f st
  | UiOp.closeP => closePreview st

/-- Runs a sequence of open and close operations. -/
def runOps (st : PageState) (ops : List UiOp) : PageState :=
  ops.foldl uiStep st

/-- Number of operations in the sequence that create a blob resource:
pdf opens whose binary read succeeds. -/
def countPdfCreates (ops : List UiOp) : Nat :=
  (ops.filter (fun op =>
    match op with
    | UiOp.openF fs f => decide (extOf f.name = "pdf") && fs.binRead.isSome
    | UiOp.closeP => false)).length

/-- One entry of the `readDir` result: its name and whether it is a
regular file. -/
structure DirEntry where
  name : String
  isFile : Bool
deriving Repr, DecidableEq

/-- `Promise.all` over already-settled outcomes: rejects (none) exactly
when some input rejected, otherwise resolves to the list of values. -/
def promiseAll {α : Type} : List (Option α) → Option (List α)
  | [] => some []
  | none :: _ => none
  | some a :: rest => (promiseAll rest).map (fun l => a :: l)

/-- One arm of the `entries.map` callback in `loadFiles`: null for a
non-file entry, otherwise the stat result turned into a `FileType` with
mtime defaulting to 0, and rejection when stat throws.  The stat oracle
maps a name to none when `stat` throws, and otherwise to the optional
mtime it reports.  The outer Option is settled-vs-rejected, the inner
one is the null produced for non-file entries. -/
def fetchEntry (statRes : String → Option (Option Int)) (e : DirEntry) :
    Option (Option FileType) :=
  if e.isFile then
    match statRes e.name with
    | none => none
    | some mt => some (some { name := e.name, mtime := mt.getD 0 })
  else some none

/-- Stable descending insertion by mtime: the element goes before the
first already-placed element whose mtime is not larger, so elements with
equal mtime keep their relative order. -/
def insertDesc (x : FileType) : List FileType → List FileType
  | [] => [x]
  | y :: ys => if y.mtime ≤ x.mtime then x :: y :: ys else y :: insertDesc x ys

/-- Model of `Array.prototype.sort` with comparator
`(a, b) => b.mtime - a.mtime`: by the ECMAScript specification this is a
stable sort ordered by the comparator, which any stable
descending-by-mtime sort realizes; here, insertion sort. -/
def sortByMtimeDesc : List FileType → List FileType
  | [] => []
  | x :: xs => insertDesc x (sortByMtimeDesc xs)

/-- The surviving entries in enumeration order: empty when the joined
metadata fetch rejected (the catch branch sets the catalog to the empty
list), otherwise the non-null file objects of the join, before
sorting. -/
def surviving (statRes : String → Option (Option Int))
    (entries : List DirEntry) : List FileType :=
  match promiseAll (entries.map (fetchEntry statRes)) with
  | none => []
  | some objs => objs.reduceOption

/-- `loadFiles` over an already-read directory listing: joins all
per-entry stat fetches with `Promise.all` (one rejection fails the whole
listing, caught as an empty catalog), drops the nulls of non-file
entries, and sorts the remainder by mtime descending.  Returns the new
catalog stored by `setFiles`. -/
def loadFiles (statRes : String → Option (Option Int))
    (entries : List DirEntry) : List FileType :=
  sortByMtimeDesc (surviving statRes entries)

/-- `deleteFile`: when the underlying remove succeeds, entries with the
removed name are dropped from the in-memory catalog; when it throws, the
error is logged (the Bool output) and the catalog is untouched. -/
def deleteFile (removeOk : Bool) (file : FileType) (files : List FileType) :
    List FileType × Bool :=
  if removeOk then
    (files.filter (fun f => decide (f.name ≠ file.name)), false)
  else (files, true)

/-- Whether the export directory exists. -/
structure FsState where
  dirExists : Bool
deriving Repr, DecidableEq

/-- `ensureFolderExists`: checks existence, creates the directory only
when absent; a creation failure (the mkdirOk oracle) is caught and
logged (the Bool output), never thrown to the caller. -/
def ensureFolderExists (mkdirOk : Bool) (s : FsState) : FsState × Bool :=
  if s.dirExists then (s, false)
  else if mkdirOk then ({ dirExists := true }, false)
  else (s, true)

/-- Stat oracle for the listing counterexample: a.txt has mtime 5, any
other stat call throws. -/
def cexStat : String → Option (Option Int) :=
  fun n => if n = "a.txt" then some (some 5) else none

/-- Directory listing for the counterexample: two regular files. -/
def cexEntries : List DirEntry :=
  [{ name := "a.txt", isFile := true }, { name := "b.txt", isFile := true }]

/-- Oracle for pdf opens: the binary read yields raw bytes. -/
def pdfOracle : FsOracle :=
  { textRead := none, binRead := some (Sum.inr [1, 2, 3]) }

/-- Two successive pdf opens. -/
def cexOps : List UiOp :=
  [UiOp.openF pdfOracle { name := "a.pdf", mtime := 0 },
    UiOp.openF pdfOracle { name := "b.pdf", mtime := 0 }]

/-! Lemmas about `splitOnChar` and `intercalateChar`. -/

theorem splitOnChar_ne_nil (sep : Char) (l : List Char) :
    splitOnChar sep l ≠ [] := by
  cases l with
  | nil => simp [splitOnChar]
  | cons c cs =>
    simp only [splitOnChar]
    by_cases h : c = sep
    · simp [h]
    · simp only [h, if_false]
      cases hs : splitOnChar sep cs <;> simp

theorem splitOnChar_not_mem {sep : Char} :
    ∀ {l : List Char}, sep ∉ l → splitOnChar sep l = [l]
  | [], _ => rfl
  | c :: cs, h => by
    have hc : ¬ c = sep := fun hh => h (hh ▸ List.mem_cons_self c cs)
    have hcs : sep ∉ cs := fun hh => h (List.mem_cons_of_mem _ hh)
    simp only [splitOnChar, hc, if_false]
    rw [splitOnChar_not_mem hcs]

theorem two_le_splitOnChar_length {sep : Char} :
    ∀ {l : List Char}, sep ∈ l → 2 ≤ (splitOnChar sep l).length
  | [], h => absurd h (List.not_mem_nil sep)
  | c :: cs, h => by
    simp only [splitOnChar]
    by_cases hc : c = sep
    · simp only [hc, if_true]
      have h1 : splitOnChar sep cs ≠ [] := splitOnChar_ne_nil sep cs
      cases hs : splitOnChar sep cs with
      | nil => exact absurd hs h1
      | cons p ps => simp
    · have hcs : sep ∈ cs := by
        rcases List.mem_cons.mp h with h1 | h1
        · exact absurd h1.symm hc
        · exact h1
      have h2 := two_le_splitOnChar_length hcs
      simp only [hc, if_false]
      cases hs : splitOnChar sep cs with
      | nil => exact absurd hs (splitOnChar_ne_nil sep cs)
      | cons p ps =>
        rw [hs] at h2
        simpa using h2

theorem getLastD_splitOnChar_cons {sep c : Char} {cs : List Char}
    (h : sep ∈ cs) :
    (splitOnChar sep (c :: cs)).getLastD [] =
      (splitOnChar sep cs).getLastD [] := by
  simp only [splitOnChar]
  by_cases hc : c = sep
  · simp only [hc, if_true]
    cases hs : splitOnChar sep cs with
    | nil => exact absurd hs (splitOnChar_ne_nil sep cs)
    | cons p ps => simp [List.getLastD_cons]
  · simp only [hc, if_false]
    have h2 := two_le_splitOnChar_length h
    cases hs : splitOnChar sep cs with
    | nil => exact absurd hs (splitOnChar_ne_nil sep cs)
    | cons p ps =>
      rw [hs] at h2
      cases ps with
      | nil => simp at h2
      | cons q qs => simp [List.getLastD_cons]

theorem getLastD_splitOnChar_eq_suffix :
    ∀ l : List Char, (splitOnChar '.' l).getLastD [] = suffixAfterLastDot l
  | [] => rfl
  | c :: cs => by
    by_cases hmem : '.' ∈ cs
    · rw [getLastD_splitOnChar_cons hmem, getLastD_splitOnChar_eq_suffix cs]
      simp [suffixAfterLastDot, hmem]
    · have hs : splitOnChar '.' cs = [cs] := splitOnChar_not_mem hmem
      by_cases hc : c = '.'
      · simp only [splitOnChar, hc, if_true, hs]
        simp [suffixAfterLastDot, hmem, List.getLastD_cons]
      · simp only [splitOnChar, hc, if_false, hs]
        simp [suffixAfterLastDot, hmem, hc, List.getLastD_cons]

theorem splitOnChar_append {sep : Char} :
    ∀ {p : List Char}, sep ∉ p → ∀ rest : List Char,
      splitOnChar sep (p ++ sep :: rest) = p :: splitOnChar sep rest
  | [], _, rest => by simp [splitOnChar]
  | c :: cs, h, rest => by
    have hc : ¬ c = sep := fun hh => h (hh ▸ List.mem_cons_self c cs)
    have hcs : sep ∉ cs := fun hh => h (List.mem_cons_of_mem _ hh)
    simp only [List.cons_append, splitOnChar, hc, if_false, List.append_eq]
    rw [splitOnChar_append hcs rest]

theorem splitOnChar_intercalate {sep : Char} :
    ∀ {parts : List (List Char)}, parts ≠ [] → (∀ p ∈ parts, sep ∉ p) →
      splitOnChar sep (intercalateChar sep parts) = parts
  | [], hne, _ => absurd rfl hne
  | [p], _, h => by
    simp only [intercalateChar]
    exact splitOnChar_not_mem (h p (List.mem_singleton.mpr rfl))
  | p :: q :: ps, _, h => by
    simp only [intercalateChar]
    rw [splitOnChar_append (h p (List.mem_cons_self p _)) _]
    rw [splitOnChar_intercalate (List.cons_ne_nil q ps)
      (fun r hr => h r (List.mem_cons_of_mem _ hr))]

theorem mem_intercalateChar {sep x : Char} :
    ∀ {parts : List (List Char)}, x ∈ intercalateChar sep parts →
      x = sep ∨ ∃ p, p ∈ parts ∧ x ∈ p
  | [], h => absurd h (List.not_mem_nil x)
  | [p], h => Or.inr ⟨p, List.mem_singleton.mpr rfl, h⟩
  | p :: q :: ps, h => by
    simp only [intercalateChar, List.mem_append, List.mem_cons] at h
    rcases h with hp | hx | hrest
    · exact Or.inr ⟨p, List.mem_cons_self p _, hp⟩
    · exact Or.inl hx
    · rcases mem_intercalateChar hrest with hs | ⟨r, hr, hxr⟩
      · exact Or.inl hs
      · exact Or.inr ⟨r, List.mem_cons_of_mem _ hr, hxr⟩


/-! Lemmas about the stable descending sort. -/

theorem perm_insertDesc (x : FileType) :
    ∀ l : List FileType, (insertDesc x l).Perm (x :: l)
  | [] => List.Perm.refl _
  | y :: ys => by
    simp only [insertDesc]
    by_cases hle : y.mtime ≤ x.mtime
    · rw [if_pos hle]
    · rw [if_neg hle]
      exact ((perm_insertDesc x ys).cons y).trans (List.Perm.swap x y ys)

theorem mem_insertDesc {z x : FileType} {l : List FileType}
    (h : z ∈ insertDesc x l) : z = x ∨ z ∈ l := by
  have := (perm_insertDesc x l).mem_iff.mp h
  simpa using this

theorem sorted_insertDesc {x : FileType} :
    ∀ {l : List FileType}, l.Pairwise (fun a b => b.mtime ≤ a.mtime) →
      (insertDesc x l).Pairwise (fun a b => b.mtime ≤ a.mtime)
  | [], _ => List.pairwise_singleton _ x
  | y :: ys, h => by
    simp only [insertDesc]
    by_cases hle : y.mtime ≤ x.mtime
    · rw [if_pos hle]
      refine List.Pairwise.cons ?_ h
      intro z hz
      rcases List.mem_cons.mp hz with rfl | hz2
      · exact hle
      · exact le_trans (List.rel_of_pairwise_cons h hz2) hle
    · rw [if_neg hle]
      refine List.Pairwise.cons ?_ (sorted_insertDesc (List.Pairwise.of_cons h))
      intro z hz
      rcases mem_insertDesc hz with rfl | hz2
      · exact le_of_lt (lt_of_not_le hle)
      · exact List.rel_of_pairwise_cons h hz2

theorem sorted_sortByMtimeDesc :
    ∀ l : List FileType,
      (sortByMtimeDesc l).Pairwise (fun a b => b.mtime ≤ a.mtime)
  | [] => List.Pairwise.nil
  | _ :: xs => sorted_insertDesc (sorted_sortByMtimeDesc xs)

theorem filter_insertDesc (m : Int) (x : FileType) :
    ∀ l : List FileType,
      (insertDesc x l).filter (fun f => decide (f.mtime = m)) =
        (x :: l).filter (fun f => decide (f.mtime = m))
  | [] => rfl
  | y :: ys => by
    simp only [insertDesc]
    by_cases hle : y.mtime ≤ x.mtime
    · rw [if_pos hle]
    · rw [if_neg hle]
      have hlt : x.mtime < y.mtime := lt_of_not_le hle
      have hrec := filter_insertDesc m x ys
      by_cases hy : y.mtime = m
      · have hx : ¬ x.mtime = m := by omega
        rw [List.filter_cons_of_pos (by simp [hy]), hrec,
          List.filter_cons_of_neg (by simp [hx]),
          List.filter_cons_of_neg (by simp [hx]),
          List.filter_cons_of_pos (by simp [hy])]
      · rw [List.filter_cons_of_neg (by simp [hy]), hrec]
        by_cases hx : x.mtime = m
        · rw [List.filter_cons_of_pos (by simp [hx]),
            List.filter_cons_of_pos (by simp [hx]),
            List.filter_cons_of_neg (by simp [hy])]
        · rw [List.filter_cons_of_neg (by simp [hx]),
            List.filter_cons_of_neg (by simp [hx]),
            List.filter_cons_of_neg (by simp [hy])]

theorem filter_sortByMtimeDesc (m : Int) :
    ∀ l : List FileType,
      (sortByMtimeDesc l).filter (fun f => decide (f.mtime = m)) =
        l.filter (fun f => decide (f.mtime = m))
  | [] => rfl
  | x :: xs => by
    simp only [sortByMtimeDesc]
    rw [filter_insertDesc m x (sortByMtimeDesc xs)]
    simp only [List.filter_cons]
    rw [filter_sortByMtimeDesc m xs]

theorem perm_sortByMtimeDesc :
    ∀ l : List FileType, (sortByMtimeDesc l).Perm l
  | [] => List.Perm.refl _
  | x :: xs =>
    (perm_insertDesc x (sortByMtimeDesc xs)).trans
      ((perm_sortByMtimeDesc xs).cons x)

/-! Lemmas about the joined metadata fetch. -/

theorem promiseAll_eq_none {α : Type} :
    ∀ {l : List (Option α)}, none ∈ l → promiseAll l = none
  | none :: _, _ => rfl
  | some a :: rest, h => by
    have hrest : none ∈ rest := by
      rcases List.mem_cons.mp h with h1 | h1
      · exact absurd h1 (by simp)
      · exact h1
    simp only [promiseAll, promiseAll_eq_none hrest, Option.map_none']

/-! Lemmas about the base64 round trip. -/

theorem charToSextet_sextetToChar : ∀ n < 64, charToSextet (sextetToChar n) = n := by
  decide

theorem sextetToChar_ne_pad : ∀ n < 64, sextetToChar n ≠ '=' := by
  decide

theorem toNat_ofNat_of_valid (n : Nat) (h : n.isValidChar) :
    (Char.ofNat n).toNat = n := by
  rw [Char.ofNat, dif_pos h]
  rfl

theorem toNat_ofNat_of_byte {n : Nat} (h : n < 256) :
    (Char.ofNat n).toNat = n :=
  toNat_ofNat_of_valid n (Or.inl (by omega))

theorem decodeChunks_encodeChunks :
    ∀ bytes : List Nat, (∀ x ∈ bytes, x < 256) →
      decodeChunks (encodeChunks bytes) = bytes
  | [], _ => rfl
  | [a], h => by
    have ha : a < 256 := h a (by simp)
    simp only [encodeChunks, decodeChunks, if_true]
    rw [charToSextet_sextetToChar (a / 4) (by omega),
      charToSextet_sextetToChar (a % 4 * 16) (by omega)]
    simp only [List.cons.injEq, and_true]
    omega
  | [a, b], h => by
    have ha : a < 256 := h a (by simp)
    have hb : b < 256 := h b (by simp)
    simp only [encodeChunks, decodeChunks, if_true]
    rw [if_neg (sextetToChar_ne_pad (b % 16 * 4) (by omega))]
    rw [charToSextet_sextetToChar (a / 4) (by omega),
      charToSextet_sextetToChar (a % 4 * 16 + b / 16) (by omega),
      charToSextet_sextetToChar (b % 16 * 4) (by omega)]
    simp only [List.cons.injEq, and_true]
    exact ⟨by omega, by omega⟩
  | a :: b :: c :: rest, h => by
    have ha : a < 256 := h a (by simp)
    have hb : b < 256 := h b (by simp)
    have hc : c < 256 := h c (by simp)
    have hrest : ∀ x ∈ rest, x < 256 := fun x hx => h x (by simp [hx])
    simp only [encodeChunks, decodeChunks]
    rw [if_neg (sextetToChar_ne_pad (c % 64) (by omega))]
    rw [charToSextet_sextetToChar (a / 4) (by omega),
      charToSextet_sextetToChar (a % 4 * 16 + b / 16) (by omega),
      charToSextet_sextetToChar (b % 16 * 4 + c / 64) (by omega),
      charToSextet_sextetToChar (c % 64) (by omega)]
    rw [decodeChunks_encodeChunks rest hrest]
    simp only [List.cons.injEq]
    exact ⟨by omega, by omega, by omega, trivial⟩

/-! Lemmas about the preview lifecycle state. -/

theorem openFile_liveUrls_length (fs : FsOracle) (f : FileType)
    (st : PageState) :
    (openFile fs f st).liveUrls.length =
      st.liveUrls.length +
        (if decide (extOf f.name = "pdf") && fs.binRead.isSome then 1 else 0) := by
  unfold openFile readAnyFile
  by_cases h1 : extOf f.name = "txt"
  · have hp : ¬ extOf f.name = "pdf" := by rw [h1]; decide
    rw [if_pos h1]
    cases fs.textRead <;> simp [hp]
  · rw [if_neg h1]
    by_cases h2 : extOf f.name = "csv"
    · have hp : ¬ extOf f.name = "pdf" := by rw [h2]; decide
      rw [if_pos h2]
      cases fs.textRead <;> simp [hp]
    · rw [if_neg h2]
      by_cases h3 : extOf f.name = "pdf"
      · rw [if_pos h3]
        cases fs.binRead <;> simp [h3]
      · rw [if_neg h3]
        simp [h3]

theorem map_mk_map_data : ∀ l : List String,
    (l.map String.data).map String.mk = l
  | [] => rfl
  | s :: rest => by
    rw [List.map_cons, List.map_cons, map_mk_map_data rest]

theorem suffixAfterLastDot_no_dot :
    ∀ {l : List Char}, '.' ∉ l → suffixAfterLastDot l = l
  | [], _ => rfl
  | c :: cs, h => by
    have hc : ¬ c = '.' := fun hh => h (hh ▸ List.mem_cons_self c cs)
    have hcs : '.' ∉ cs := fun hh => h (List.mem_cons_of_mem _ hh)
    simp [suffixAfterLastDot, hcs, hc]

theorem extOf_eq_specSuffixLower (name : String) :
    extOf name = specSuffixLower name := by
  unfold extOf specSuffixLower
  rw [getLastD_splitOnChar_eq_suffix]

/-! Helper lemmas shared by several claims. -/

theorem readAnyFile_snd_unknown (fs : FsOracle) (file : FileType)
    (st : PageState) :
    (readAnyFile fs file st).2 = PreviewResult.unknown := by
  unfold readAnyFile
  by_cases h1 : extOf file.name = "txt"
  · rw [if_pos h1]; cases fs.textRead <;> rfl
  · rw [if_neg h1]
    by_cases h2 : extOf file.name = "csv"
    · rw [if_pos h2]; cases fs.textRead <;> rfl
    · rw [if_neg h2]
      by_cases h3 : extOf file.name = "pdf"
      · rw [if_pos h3]; cases fs.binRead <;> rfl
      · rw [if_neg h3]

theorem readAnyFile_txt_effect (fs : FsOracle) (file : FileType)
    (st : PageState) (h1 : extOf file.name = "txt") (t : String)
    (ht : fs.textRead = some t) :
    ((readAnyFile fs file st).1).fileContent = some (PreviewResult.txt t) := by
  unfold readAnyFile
  rw [if_pos h1, ht]

theorem readAnyFile_pdf_effect (fs : FsOracle) (file : FileType)
    (st : PageState) (h3 : extOf file.name = "pdf")
    (hb : fs.binRead.isSome = true) :
    ((readAnyFile fs file st).1).pdfUrl = freshUrl st.urlCounter := by
  have h1 : ¬ extOf file.name = "txt" := by rw [h3]; decide
  have h2 : ¬ extOf file.name = "csv" := by rw [h3]; decide
  unfold readAnyFile
  rw [if_neg h1, if_neg h2, if_pos h3]
  cases hbr : fs.binRead with
  | none => rw [hbr] at hb; simp at hb
  | some b => rfl

theorem classify_eq_kind_of_suffix (name : String) :
    classify name = extKindMap (specSuffixLower name) := by
  unfold classify extKindMap
  rw [extOf_eq_specSuffixLower]

theorem readAnyFile_of_unsupported (fs : FsOracle) (file : FileType)
    (st : PageState) (hcu : classify file.name = PreviewKind.unsupported) :
    readAnyFile fs file st = (st, PreviewResult.unknown) := by
  unfold classify at hcu
  by_cases h1 : extOf file.name = "txt"
  · rw [if_pos h1] at hcu; exact absurd hcu (by decide)
  · rw [if_neg h1] at hcu
    by_cases h2 : extOf file.name = "csv"
    · rw [if_pos h2] at hcu; exact absurd hcu (by decide)
    · rw [if_neg h2] at hcu
      by_cases h3 : extOf file.name = "pdf"
      · rw [if_pos h3] at hcu; exact absurd hcu (by decide)
      · unfold readAnyFile
        rw [if_neg h1, if_neg h2, if_neg h3]

/-! Claim theorems. -/

/-- C9: for every oracle outcome, input file and state, the open/read
operation returns the unknown variant, both on success of the txt, csv
and pdf branches and on failure; the actual preview representation is
delivered only through the state (second and third conjuncts show the
successful txt and pdf effects land in the state while the return value
stays unknown). -/
theorem readAnyFile_returns_unknown (fs : FsOracle) (file : FileType)
    (st : PageState) :
    (readAnyFile fs file st).2 = PreviewResult.unknown ∧
    (extOf file.name = "txt" → ∀ t, fs.textRead = some t →
      ((readAnyFile fs file st).1).fileContent = some (PreviewResult.txt t)) ∧
    (extOf file.name = "pdf" → fs.binRead.isSome = true →
      ((readAnyFile fs file st).1).pdfUrl = freshUrl st.urlCounter) :=
  ⟨readAnyFile_snd_unknown fs file st,
    fun h1 t ht => readAnyFile_txt_effect fs file st h1 t ht,
    fun h3 hb => readAnyFile_pdf_effect fs file st h3 hb⟩

/-- C9 witness: concrete instances of the three conjuncts. -/
theorem readAnyFile_returns_unknown_witness :
    (readAnyFile { textRead := some "hi", binRead := none }
        { name := "n.txt", mtime := 0 } initState).2 = PreviewResult.unknown ∧
    ((readAnyFile { textRead := some "hi", binRead := none }
        { name := "n.txt", mtime := 0 } initState).1).fileContent =
      some (PreviewResult.txt "hi") :=
  ⟨(readAnyFile_returns_unknown { textRead := some "hi", binRead := none }
      { name := "n.txt", mtime := 0 } initState).1,
    (readAnyFile_returns_unknown { textRead := some "hi", binRead := none }
      { name := "n.txt", mtime := 0 } initState).2.1 (by decide) "hi" rfl⟩

/-- C4: the preview kind chosen by the dispatcher is a pure function of
the lowercased suffix after the last dot of the file name, with the
txt/csv/pdf mapping and unsupported for everything else; and whenever
that kind is unsupported the dispatcher touches neither state nor
content, regardless of the read oracle (classification never inspects
content). -/
theorem classify_factors_through_suffix (name : String) (fs : FsOracle)
    (file : FileType) (st : PageState) :
    classify name = extKindMap (specSuffixLower name) ∧
    (classify file.name = PreviewKind.unsupported →
      readAnyFile fs file st = (st, PreviewResult.unknown)) :=
  ⟨classify_eq_kind_of_suffix name,
    fun hcu => readAnyFile_of_unsupported fs file st hcu⟩

/-- C4 witness: the factorization at a concrete name, and the
unsupported no-op at a concrete unsupported file. -/
theorem classify_factors_through_suffix_witness :
    classify "Report.TXT" = extKindMap (specSuffixLower "Report.TXT") ∧
    readAnyFile { textRead := some "junk", binRead := some (Sum.inr [9]) }
        { name := "d.exe", mtime := 0 } initState =
      (initState, PreviewResult.unknown) :=
  ⟨(classify_factors_through_suffix "Report.TXT"
      { textRead := some "junk", binRead := some (Sum.inr [9]) }
      { name := "d.exe", mtime := 0 } initState).1,
    (classify_factors_through_suffix "Report.TXT"
      { textRead := some "junk", binRead := some (Sum.inr [9]) }
      { name := "d.exe", mtime := 0 } initState).2 (by decide)⟩

/-- C10: for a name with no dot, the extension used for classification
is the entire lowercased name, so files named exactly txt, csv or pdf
(in any letter case) are classified as those formats, and a file named
"txt" is previewed as text when its read succeeds. -/
theorem classify_no_dot (name : String) (hnd : '.' ∉ name.data) :
    classify name = extKindMap (String.mk (name.data.map Char.toLower)) ∧
    classify "txt" = PreviewKind.text ∧
    classify "CSV" = PreviewKind.tabular ∧
    classify "Pdf" = PreviewKind.binaryResource ∧
    (∀ fs st t, fs.textRead = some t →
      ((readAnyFile fs { name := "txt", mtime := 0 } st).1).fileContent =
        some (PreviewResult.txt t)) := by
  refine ⟨?_, by decide, by decide, by decide, ?_⟩
  · rw [classify_eq_kind_of_suffix name]
    unfold specSuffixLower
    rw [suffixAfterLastDot_no_dot hnd]
  · intro fs st t ht
    exact readAnyFile_txt_effect fs { name := "txt", mtime := 0 } st
      (by decide) t ht

/-- C10 witness: the extension of the dotless name "TXT" is its entire
lowercased self, and a file named exactly "txt" is previewed as text. -/
theorem classify_no_dot_witness :
    classify "TXT" = extKindMap (String.mk ("TXT".data.map Char.toLower)) ∧
    ((readAnyFile { textRead := some "hello", binRead := none }
        { name := "txt", mtime := 0 } initState).1).fileContent =
      some (PreviewResult.txt "hello") :=
  ⟨(classify_no_dot "TXT" (by decide)).1,
    (classify_no_dot "TXT" (by decide)).2.2.2.2
      { textRead := some "hello", binRead := none } initState "hello" rfl⟩

/-- C3: every catalog produced by the listing is sorted by modification
time descending, and for each timestamp the entries carrying it appear
in exactly the order of the enumeration-order survivor list (the sort is
stable); the catalog is moreover a permutation of the survivors. -/
theorem loadFiles_sorted_stable (statRes : String → Option (Option Int))
    (entries : List DirEntry) :
    (loadFiles statRes entries).Pairwise (fun a b => b.mtime ≤ a.mtime) ∧
    (∀ m : Int,
      (loadFiles statRes entries).filter (fun f => decide (f.mtime = m)) =
        (surviving statRes entries).filter (fun f => decide (f.mtime = m))) ∧
    (loadFiles statRes entries).Perm (surviving statRes entries) :=
  ⟨sorted_sortByMtimeDesc _, fun m => filter_sortByMtimeDesc m _,
    perm_sortByMtimeDesc _⟩

/-- C1 counterexample: in a two-file directory where only the stat of
b.txt fails, the listing drops the healthy a.txt entry too; the whole
call aborts to an empty catalog instead of returning the surviving
entry. -/
theorem loadFiles_drops_all_on_single_stat_failure :
    cexStat "a.txt" = some (some 5) ∧ cexStat "b.txt" = none ∧
    loadFiles cexStat cexEntries = [] ∧
    FileType.mk "a.txt" 5 ∉ loadFiles cexStat cexEntries := by
  decide

/-- C1 amended: when the metadata fetch fails for any individual file
entry, the single join fails the whole listing and the catalog becomes
empty, dropping every other surviving entry as well. -/
theorem loadFiles_empty_of_stat_failure
    (statRes : String → Option (Option Int)) (entries : List DirEntry)
    (e : DirEntry) (hmem : e ∈ entries) (hfile : e.isFile = true)
    (hfail : statRes e.name = none) : loadFiles statRes entries = [] := by
  have hfe : fetchEntry statRes e = none := by
    simp [fetchEntry, hfile, hfail]
  have hnone : (none : Option (Option FileType)) ∈
      entries.map (fetchEntry statRes) := by
    rw [← hfe]
    exact List.mem_map_of_mem _ hmem
  unfold loadFiles surviving
  rw [promiseAll_eq_none hnone]
  rfl

/-- C1 amended witness: the concrete failing listing. -/
theorem loadFiles_empty_of_stat_failure_witness :
    (DirEntry.mk "b.txt" true ∈ cexEntries ∧
      (DirEntry.mk "b.txt" true).isFile = true ∧
      cexStat "b.txt" = none) ∧
    loadFiles cexStat cexEntries = [] :=
  ⟨⟨by decide, rfl, rfl⟩,
    loadFiles_empty_of_stat_failure cexStat cexEntries
      (DirEntry.mk "b.txt" true) (by decide) rfl rfl⟩

/-- C2 counterexample: after two successful pdf opens, two blob URLs are
live at the same instant (neither was revoked), violating the
at-most-one bound the claim states. -/
theorem two_live_blob_urls :
    (runOps initState cexOps).liveUrls.length = 2 ∧
    ¬ (runOps initState cexOps).liveUrls.length ≤ 1 := by
  decide

/-- C2 amended: the state references at most one blob URL at a time (the
reference is cleared before a new resource is created and on close), but
created blob URLs are never revoked: after any sequence of open and
close operations the number of live binary resources equals the number
of successful pdf opens in it, and closing the preview releases
nothing. -/
theorem liveUrls_count_eq_pdf_opens (st : PageState) (ops : List UiOp) :
    (runOps st ops).liveUrls.length =
      st.liveUrls.length + countPdfCreates ops ∧
    (closePreview st).liveUrls = st.liveUrls := by
  constructor
  · induction ops generalizing st with
    | nil => simp [runOps, countPdfCreates]
    | cons op rest ih =>
      have hstep : runOps st (op :: rest) = runOps (uiStep st op) rest := rfl
      rw [hstep, ih]
      cases op with
      | closeP =>
        have h1 : (uiStep st UiOp.closeP).liveUrls = st.liveUrls := rfl
        rw [h1]
        have h2 : countPdfCreates (UiOp.closeP :: rest) = countPdfCreates rest := by
          simp [countPdfCreates, List.filter_cons]
        rw [h2]
      | openF fs f =>
        have h1 : uiStep st (UiOp.openF fs f) = openFile fs f st := rfl
        rw [h1, openFile_liveUrls_length]
        have h2 : countPdfCreates (UiOp.openF fs f :: rest) =
            (if decide (extOf f.name = "pdf") && fs.binRead.isSome then 1 else 0) +
              countPdfCreates rest := by
          simp only [countPdfCreates, List.filter_cons]
          by_cases hp : decide (extOf f.name = "pdf") && fs.binRead.isSome
          · rw [if_pos hp, if_pos hp]
            simp [Nat.add_comm]
          · rw [if_neg hp]
            simp only [Bool.not_eq_true] at hp
            rw [hp]
            simp
        rw [h2]
        omega
  · rfl

/-- C6: when the remove succeeds, the deleted name is absent from the
resulting catalog, the result is a sublist of the old catalog (all other
entries keep their relative order), every entry with a different name
survives, and no error is logged; when the remove fails, the error is
logged and the catalog is exactly unchanged. -/
theorem deleteFile_spec (ok : Bool) (file : FileType)
    (files : List FileType) :
    (ok = true →
      (∀ g ∈ (deleteFile ok file files).1, g.name ≠ file.name) ∧
      (deleteFile ok file files).1.Sublist files ∧
      (∀ g ∈ files, g.name ≠ file.name → g ∈ (deleteFile ok file files).1) ∧
      (deleteFile ok file files).2 = false) ∧
    (ok = false → deleteFile ok file files = (files, true)) := by
  constructor
  · rintro rfl
    refine ⟨?_, ?_, ?_, rfl⟩
    · intro g hg
      simp only [deleteFile, if_pos rfl] at hg
      have := List.of_mem_filter hg
      simpa using this
    · simp only [deleteFile, if_pos rfl]
      exact List.filter_sublist files
    · intro g hgmem hgname
      simp only [deleteFile, if_pos rfl]
      exact List.mem_filter.mpr ⟨hgmem, by simpa using hgname⟩
  · rintro rfl
    simp [deleteFile]

/-- C6 witness: deleting a from a two-entry catalog leaves exactly b, in
order, with no log; a failing delete leaves the catalog untouched and
logs. -/
theorem deleteFile_spec_witness :
    ((∀ g ∈ (deleteFile true (FileType.mk "a" 0)
        [FileType.mk "a" 0, FileType.mk "b" 1]).1,
        g.name ≠ (FileType.mk "a" 0).name) ∧
      (deleteFile true (FileType.mk "a" 0)
        [FileType.mk "a" 0, FileType.mk "b" 1]).1.Sublist
          [FileType.mk "a" 0, FileType.mk "b" 1] ∧
      (∀ g ∈ [FileType.mk "a" 0, FileType.mk "b" 1],
        g.name ≠ (FileType.mk "a" 0).name →
          g ∈ (deleteFile true (FileType.mk "a" 0)
            [FileType.mk "a" 0, FileType.mk "b" 1]).1) ∧
      (deleteFile true (FileType.mk "a" 0)
        [FileType.mk "a" 0, FileType.mk "b" 1]).2 = false) ∧
    deleteFile false (FileType.mk "a" 0)
        [FileType.mk "a" 0, FileType.mk "b" 1] =
      ([FileType.mk "a" 0, FileType.mk "b" 1], true) :=
  ⟨(deleteFile_spec true (FileType.mk "a" 0)
      [FileType.mk "a" 0, FileType.mk "b" 1]).1 rfl,
    (deleteFile_spec false (FileType.mk "a" 0)
      [FileType.mk "a" 0, FileType.mk "b" 1]).2 rfl⟩

/-- C7: for every byte sequence, the binary-preview normalization yields
the same bytes whether the host hands the read back as raw bytes or as
the base64 encoding of those bytes in a string. -/
theorem uint8FromBinary_normalizes (bytes : List Nat)
    (h : ∀ x ∈ bytes, x < 256) :
    uint8FromBinary (Sum.inl (base64Encode bytes)) =
      uint8FromBinary (Sum.inr bytes) := by
  show ((atobStr (base64Encode bytes)).data).map Char.toNat = bytes
  unfold atobStr base64Encode
  show ((decodeChunks (encodeChunks bytes)).map Char.ofNat).map Char.toNat = bytes
  rw [decodeChunks_encodeChunks bytes h, List.map_map]
  have hid : ∀ x ∈ bytes, (Char.toNat ∘ Char.ofNat) x = id x := fun x hx =>
    toNat_ofNat_of_byte (h x hx)
  rw [List.map_congr_left hid, List.map_id]

/-- C7 witness: the two host encodings of the bytes 0, 77, 255 evaluate
to the same normalized byte array. -/
theorem uint8FromBinary_normalizes_witness :
    (∀ x ∈ [0, 77, 255], x < 256) ∧
    uint8FromBinary (Sum.inl (base64Encode [0, 77, 255])) =
      uint8FromBinary (Sum.inr [0, 77, 255]) :=
  ⟨by decide, uint8FromBinary_normalizes [0, 77, 255] (by decide)⟩

/-- C8: ensuring the directory is idempotent: a call on an existing
directory changes nothing and logs no error, the second of two
consecutive calls never errors when the directory exists after the
first, and running the operation twice (under the same creation oracle)
leaves exactly the state of a single run. -/
theorem ensureFolderExists_idempotent (ok ok2 : Bool) (s : FsState) :
    (s.dirExists = true → ensureFolderExists ok s = (s, false)) ∧
    ((ensureFolderExists ok s).1.dirExists = true →
      ensureFolderExists ok2 (ensureFolderExists ok s).1 =
        ((ensureFolderExists ok s).1, false)) ∧
    (ensureFolderExists ok (ensureFolderExists ok s).1).1 =
      (ensureFolderExists ok s).1 := by
  cases s with
  | mk d => cases d <;> cases ok <;> cases ok2 <;>
      simp [ensureFolderExists]

/-- C8 witness: concrete second calls on an existing and a just-created
directory. -/
theorem ensureFolderExists_idempotent_witness :
    ensureFolderExists true { dirExists := true } =
      ({ dirExists := true }, false) ∧
    ensureFolderExists false (ensureFolderExists true { dirExists := false }).1 =
      ((ensureFolderExists true { dirExists := false }).1, false) :=
  ⟨(ensureFolderExists_idempotent true true { dirExists := true }).1 rfl,
    (ensureFolderExists_idempotent true false { dirExists := false }).2.1 rfl⟩

/-! Lemmas for the CSV round trip. -/

theorem csvLine_no_newline {r : List String}
    (hc : ∀ c ∈ r, ',' ∉ c.data ∧ '\n' ∉ c.data) : '\n' ∉ csvLine r := by
  intro hmem
  rcases mem_intercalateChar hmem with heq | ⟨p, hp, hxp⟩
  · exact absurd heq (by decide)
  · rcases List.mem_map.mp hp with ⟨s, hsmem, rfl⟩
    exact (hc s hsmem).2 hxp

theorem splitOnChar_csvLine {r : List String} (hr : r ≠ [])
    (hc : ∀ c ∈ r, ',' ∉ c.data) :
    (splitOnChar ',' (csvLine r)).map String.mk = r := by
  unfold csvLine
  have hparts : ∀ p ∈ r.map String.data, ',' ∉ p := by
    intro p hp
    rcases List.mem_map.mp hp with ⟨s, hsmem, rfl⟩
    exact hc s hsmem
  have hne : r.map String.data ≠ [] := by
    simpa using hr
  rw [splitOnChar_intercalate hne hparts]
  exact map_mk_map_data r

/-- C5: a csv text made of a header line with the given column names
followed by one line per data row (cells free of separators, no fully
empty line among them) parses to exactly one record per data row, each
pairing the header names with that row's cells in column order, the
values kept as strings. -/
theorem papaParse_mkCsv (hs : List String) (rows : List (List String))
    (hhead : csvLine hs ≠ [])
    (hcols : ∀ s ∈ hs, ',' ∉ s.data ∧ '\n' ∉ s.data)
    (hrows : ∀ r ∈ rows, r.length = hs.length ∧ csvLine r ≠ [] ∧
      ∀ c ∈ r, ',' ∉ c.data ∧ '\n' ∉ c.data) :
    papaParse (mkCsv hs rows) = rows.map (fun r => hs.zip r) ∧
    (papaParse (mkCsv hs rows)).length = rows.length := by
  have hhsne : hs ≠ [] := by
    intro h
    rw [h] at hhead
    exact hhead rfl
  have hnolines : ∀ p ∈ csvLine hs :: rows.map csvLine, '\n' ∉ p := by
    intro p hp
    rcases List.mem_cons.mp hp with rfl | hp2
    · exact csvLine_no_newline hcols
    · rcases List.mem_map.mp hp2 with ⟨r, hr, rfl⟩
      exact csvLine_no_newline (hrows r hr).2.2
  have hsplit : splitOnChar '\n' (mkCsv hs rows).data =
      csvLine hs :: rows.map csvLine :=
    splitOnChar_intercalate (List.cons_ne_nil _ _) hnolines
  have hfilter : (splitOnChar '\n' (mkCsv hs rows).data).filter
      (fun l => !l.isEmpty) = csvLine hs :: rows.map csvLine := by
    rw [hsplit]
    apply List.filter_eq_self.mpr
    intro a ha
    rcases List.mem_cons.mp ha with rfl | ha2
    · simpa using hhead
    · rcases List.mem_map.mp ha2 with ⟨r, hr, rfl⟩
      simpa using (hrows r hr).2.1
  have hheader : (splitOnChar ',' (csvLine hs)).map String.mk = hs :=
    splitOnChar_csvLine hhsne (fun c hc => (hcols c hc).1)
  have hmain : papaParse (mkCsv hs rows) = rows.map (fun r => hs.zip r) := by
    unfold papaParse
    rw [hfilter]
    simp only [List.map_map]
    apply List.map_congr_left
    intro r hr
    have hrne : r ≠ [] := by
      intro hnil
      have hlen := (hrows r hr).1
      rw [hnil] at hlen
      simp at hlen
      exact hhsne (List.length_eq_zero.mp hlen.symm)
    have hrow : (splitOnChar ',' (csvLine r)).map String.mk = r :=
      splitOnChar_csvLine hrne (fun c hc => ((hrows r hr).2.2 c hc).1)
    simp only [Function.comp]
    rw [hheader, hrow]
  exact ⟨hmain, by rw [hmain, List.length_map]⟩

/-- C5 witness: the two-column, two-row scenario. -/
theorem papaParse_mkCsv_witness :
    (csvLine ["name", "age"] ≠ [] ∧
      (∀ s ∈ ["name", "age"], ',' ∉ s.data ∧ '\n' ∉ s.data) ∧
      (∀ r ∈ [["Alice", "30"], ["Bob", "25"]],
        r.length = (["name", "age"] : List String).length ∧ csvLine r ≠ [] ∧
        ∀ c ∈ r, ',' ∉ c.data ∧ '\n' ∉ c.data)) ∧
    papaParse (mkCsv ["name", "age"] [["Alice", "30"], ["Bob", "25"]]) =
      [[("name", "Alice"), ("age", "30")], [("name", "Bob"), ("age", "25")]] := by
  refine ⟨⟨by decide, by decide, by decide⟩, ?_⟩
  rw [(papaParse_mkCsv ["name", "age"] [["Alice", "30"], ["Bob", "25"]]
    (by decide) (by decide) (by decide)).1]
  rfl
